import Mathlib

/-!
# Verification of the relative-world-ollama structured-output protocol layer

Shallow embedding of `src/relative_world_ollama/client.py` and
`src/relative_world_ollama/tools.py`: JSON values, the strict JSON decoder
(`orjson.loads`), the response extractor (`maybe_parse_json`), the schema
inliner (`inline_json_schema_defs` / `resolve_refs`), the repair sub-call
(`fix_json_response`), the generate flow (`PydanticOllamaClient.generate`),
and the tool catalog / dispatcher (`function_to_schema`, `call_tool`).
Python dicts are association lists (keys unique in practice; lookups take the
first occurrence), Python `None` is JSON null (exactly the value
`orjson.loads("null")` returns), and raised exceptions are `Except` errors.
-/

/-- A JSON value, as `orjson` produces it.  Numbers keep their source literal:
no claim below depends on numeric arithmetic, and keeping the literal avoids
floating point. -/
inductive Json where
  | null
  | bool (b : Bool)
  | num (lit : String)
  | str (s : String)
  | arr (elems : List Json)
  | obj (fields : List (String × Json))

/-! ## Character-list utilities for the decoder and the fence search -/

/-- JSON insignificant whitespace (also what `re` treats as it here). -/
def isJsonWs (c : Char) : Bool :=
  c == ' ' || c == '\t' || c == '\n' || c == '\r'

def skipWs : List Char → List Char
  | [] => []
  | c :: rest => if isJsonWs c then skipWs rest else c :: rest

/-- Does `pat` occur at the head of `l`? -/
def headMatch : List Char → List Char → Bool
  | [], _ => true
  | _ :: _, [] => false
  | p :: ps, c :: cs => p == c && headMatch ps cs

/-- Drop `n` elements (the length of a matched pattern). -/
def dropN : Nat → List Char → List Char
  | 0, l => l
  | _, [] => []
  | n + 1, _ :: cs => dropN n cs

/-- Split at the first occurrence of `pat`: `some (before, after)` with the
occurrence itself removed, or `none` when `pat` does not occur. -/
def splitFirst (pat : List Char) : List Char → Option (List Char × List Char)
  | [] => if pat.isEmpty then some ([], []) else none
  | c :: cs =>
    if headMatch pat (c :: cs) then some ([], dropN pat.length (c :: cs))
    else match splitFirst pat cs with
      | some (pre, post) => some (c :: pre, post)
      | none => none

/-- Split at the last occurrence of `pat`: the greedy backtracking `(.*)` of
the code's regex keeps everything up to the last position where `pat`
matches. -/
def splitLast (pat : List Char) : List Char → Option (List Char × List Char)
  | [] => if pat.isEmpty then some ([], []) else none
  | c :: cs =>
    match splitLast pat cs with
    | some (pre, post) => some (c :: pre, post)
    | none =>
      if headMatch pat (c :: cs) then some ([], dropN pat.length (c :: cs))
      else none

/-! ## The strict JSON decoder (`orjson.loads`) -/

def isDigitCh (c : Char) : Bool := '0' ≤ c && c ≤ '9'

/-- Value of one hexadecimal digit (`0-9`, `a-f`, `A-F`), by code point. -/
def hexVal (c : Char) : Option Nat :=
  let n := c.toNat
  if 48 ≤ n && n ≤ 57 then some (n - 48)
  else if 97 ≤ n && n ≤ 102 then some (n - 87)
  else if 65 ≤ n && n ≤ 70 then some (n - 55)
  else none

def hex4 (a b c d : Char) : Option Nat := do
  let va ← hexVal a
  let vb ← hexVal b
  let vc ← hexVal c
  let vd ← hexVal d
  some (va * 4096 + vb * 256 + vc * 16 + vd)

/-- Parse the body of a JSON string after the opening quote; strict: raw
control characters are rejected, `\u` surrogates must pair. -/
def parseStringBody : List Char → List Char → Option (String × List Char)
  | _, [] => none
  | acc, '"' :: rest => some (String.mk acc.reverse, rest)
  | acc, '\\' :: esc =>
    match esc with
    | '"' :: rest => parseStringBody ('"' :: acc) rest
    | '\\' :: rest => parseStringBody ('\\' :: acc) rest
    | '/' :: rest => parseStringBody ('/' :: acc) rest
    | 'b' :: rest => parseStringBody ('\x08' :: acc) rest
    | 'f' :: rest => parseStringBody ('\x0c' :: acc) rest
    | 'n' :: rest => parseStringBody ('\n' :: acc) rest
    | 'r' :: rest => parseStringBody ('\r' :: acc) rest
    | 't' :: rest => parseStringBody ('\t' :: acc) rest
    | 'u' :: a :: b :: c :: d :: rest =>
      match hex4 a b c d with
      | none => none
      | some n =>
        if n < 0xD800 || 0xE000 ≤ n then
          parseStringBody (Char.ofNat n :: acc) rest
        else if n < 0xDC00 then
          match rest with
          | '\\' :: 'u' :: e :: f :: g :: h :: rest2 =>
            match hex4 e f g h with
            | some lo =>
              if 0xDC00 ≤ lo && lo < 0xE000 then
                parseStringBody
                  (Char.ofNat (0x10000 + (n - 0xD800) * 1024 + (lo - 0xDC00)) :: acc)
                  rest2
              else none
            | none => none
          | _ => none
        else none
    | _ => none
  | acc, ch :: rest =>
    if ch.toNat < 0x20 then none else parseStringBody (ch :: acc) rest

def takeDigits : List Char → (List Char × List Char)
  | [] => ([], [])
  | c :: rest =>
    if isDigitCh c then
      let (ds, r) := takeDigits rest
      (c :: ds, r)
    else ([], c :: rest)

/-- Lex a strict JSON number starting at the current position, returning its
literal text.  Leading zeros, bare `-`, `1.`, `.5` and `1e` are rejected. -/
def lexNumber (input : List Char) : Option (List Char × List Char) :=
  let (sign, afterSign) :=
    match input with
    | '-' :: rest => (['-'], rest)
    | _ => ([], input)
  match afterSign with
  | [] => none
  | c :: rest =>
    if c == '0' then
      lexFrac (sign ++ ['0']) rest
    else if isDigitCh c then
      let (ds, r) := takeDigits rest
      lexFrac (sign ++ c :: ds) r
    else none
where
  lexFrac (intPart : List Char) (l : List Char) : Option (List Char × List Char) :=
    match l with
    | '.' :: rest =>
      match takeDigits rest with
      | ([], _) => none
      | (ds, r) => lexExp (intPart ++ '.' :: ds) r
    | _ => lexExp intPart l
  lexExp (mantissa : List Char) (l : List Char) : Option (List Char × List Char) :=
    match l with
    | 'e' :: rest => lexExpTail (mantissa ++ ['e']) rest
    | 'E' :: rest => lexExpTail (mantissa ++ ['E']) rest
    | _ => some (mantissa, l)
  lexExpTail (pre : List Char) (l : List Char) : Option (List Char × List Char) :=
    let (sgn, rest) :=
      match l with
      | '+' :: r => (['+'], r)
      | '-' :: r => (['-'], r)
      | _ => ([], l)
    match takeDigits rest with
    | ([], _) => none
    | (ds, r) => some (pre ++ sgn ++ ds, r)

mutual

/-- One strict JSON value, fuel-indexed (fuel bounds the recursion depth;
`orjsonLoads` supplies more than any input can use). -/
def parseValue : Nat → List Char → Option (Json × List Char)
  | 0, _ => none
  | fuel + 1, input =>
    match skipWs input with
    | [] => none
    | '{' :: rest => parseObjBody fuel (skipWs rest) []
    | '[' :: rest => parseArrBody fuel (skipWs rest) []
    | '"' :: rest =>
      match parseStringBody [] rest with
      | some (s, r) => some (Json.str s, r)
      | none => none
    | 't' :: 'r' :: 'u' :: 'e' :: rest => some (Json.bool true, rest)
    | 'f' :: 'a' :: 'l' :: 's' :: 'e' :: rest => some (Json.bool false, rest)
    | 'n' :: 'u' :: 'l' :: 'l' :: rest => some (Json.null, rest)
    | other =>
      match lexNumber other with
      | some (lit, r) => some (Json.num (String.mk lit), r)
      | none => none

/-- Members of an object after the opening brace (whitespace already
skipped). -/
def parseObjBody : Nat → List Char → List (String × Json) →
    Option (Json × List Char)
  | _, '}' :: rest, acc =>
    if acc.isEmpty then some (Json.obj [], rest) else none
  | f + 1, '"' :: rest, acc =>
    (match parseStringBody [] rest with
    | none => none
    | some (k, afterKey) =>
      match skipWs afterKey with
      | ':' :: afterColon =>
        match parseValue f afterColon with
        | none => none
        | some (v, afterVal) =>
          match skipWs afterVal with
          | ',' :: afterComma => parseObjBody f (skipWs afterComma) (acc ++ [(k, v)])
          | '}' :: rest2 => some (Json.obj (acc ++ [(k, v)]), rest2)
          | _ => none
      | _ => none)
  | _, _, _ => none

/-- Elements of an array after the opening bracket (whitespace already
skipped). -/
def parseArrBody : Nat → List Char → List Json → Option (Json × List Char)
  | _, ']' :: rest, acc =>
    if acc.isEmpty then some (Json.arr [], rest) else none
  | f + 1, other, acc =>
    (match parseValue f other with
    | none => none
    | some (v, afterVal) =>
      match skipWs afterVal with
      | ',' :: afterComma => parseArrBody f afterComma (acc ++ [v])
      | ']' :: rest2 => some (Json.arr (acc ++ [v]), rest2)
      | _ => none)
  | _, _, _ => none

end

/-- `orjson.loads`: strict decode of the whole text, `none` is a raised
`orjson.JSONDecodeError`. -/
def orjsonLoads (s : String) : Option Json :=
  let cs := s.data
  match parseValue (2 * cs.length + 2) cs with
  | some (j, rest) => if (skipWs rest).isEmpty then some j else none
  | none => none

/-! ## The Response Extractor (`maybe_parse_json`, client.py lines 25-32)

The Python function first attempts `orjson.loads(content)`.  On
`JSONDecodeError` it searches `content` for the pattern
` ```json\n(.*)\n``` ` with `re.DOTALL` (the code's `re` name is imported
from `typing`, a slip noted in the results; the embedding models the regex
the code spells).  With a match it returns `orjson.loads(match.group(1))`
— the inner decode error propagates —, with no match it falls off the end
and returns Python `None` (which is exactly the value `orjson.loads`
produces for JSON `null`). -/

/-- `re.search('```json\n(.*)\n```', content, re.DOTALL)`: the text between
the first occurrence of the opening fence and the last following occurrence
of the closing fence (leftmost match start, greedy group). -/
def extractFencedJson (content : String) : Option String :=
  match splitFirst "```json\n".data content.data with
  | none => none
  | some (_, afterOpen) =>
    match splitLast "\n```".data afterOpen with
    | none => none
    | some (inner, _) => some (String.mk inner)

/-- `maybe_parse_json`: `.error ()` is a raised `orjson.JSONDecodeError`,
`.ok Json.null` covers both a decoded `null` and the implicit `return None`
(the same Python value). -/
def maybe_parse_json (content : String) : Except Unit Json :=
  match orjsonLoads content with
  | some j => .ok j
  | none =>
    match extractFencedJson content with
    | some inner =>
      match orjsonLoads inner with
      | some j => .ok j
      | none => .error ()
    | none => .ok Json.null

/-! ## The Repair Sub-call (`fix_json_response`, client.py lines 93-129)

The transport is scripted: the text the repair model would return is passed
in as `repairResponseText`; the embedding makes exactly one such call by
construction. -/

/-- `fix_json_response`: runs the extractor on the repair call's output;
`.error badJson` is a raised `UnparsableResponseError` carrying the
original malformed text. -/
def fix_json_response (badJson : String) (repairResponseText : String) :
    Except String Json :=
  match maybe_parse_json repairResponseText with
  | .ok j => .ok j
  | .error _ => .error badJson

/-! ## `PydanticOllamaClient.generate` (client.py lines 151-188)

The transport and the pydantic validator are parameters: `primaryText` is
what `ollama_generate` returns for the prompt, `repairText` what the
transport returns for the repair call (issued only on extraction failure),
and `validate` is `response_model.model_validate` (`.error ()` a raised
`ValidationError`).  The source method returns the validated instance
alone; `repairCalls` instruments how many `fix_json_response` transport
calls the run issued. -/

inductive GenError where
  | unparsable (badJson : String)
  | validationError

structure GenerateTrace (α : Type) where
  /-- What the call returns (`.ok`) or raises (`.error`). -/
  result : Except GenError α
  /-- How many repair transport calls (`fix_json_response`) were issued. -/
  repairCalls : Nat

def runValidate (validate : Json → Except Unit α) (data : Json) :
    Except GenError α :=
  match validate data with
  | .ok v => .ok v
  | .error _ => .error .validationError

def generate (validate : Json → Except Unit α)
    (primaryText repairText : String) : GenerateTrace α :=
  match maybe_parse_json primaryText with
  | .ok data => { result := runValidate validate data, repairCalls := 0 }
  | .error _ =>
    match fix_json_response primaryText repairText with
    | .ok data => { result := runValidate validate data, repairCalls := 1 }
    | .error bad => { result := .error (.unparsable bad), repairCalls := 1 }

/-- `model_validate` for the test suite's `TestGenerateResponse` /
`BasicResponse`-style model `{response: str}`: an object whose `response`
member is a string validates (extra members ignored, as pydantic does);
anything else raises. -/
def validateBasicModel (data : Json) : Except Unit String :=
  match data with
  | Json.obj fields =>
    match fields.lookup "response" with
    | some (Json.str s) => .ok s
    | _ => .error ()
  | _ => .error ()

/-! ## The Schema Inliner (`inline_json_schema_defs`, client.py lines 35-49)

`resolve_refs` jumps from a `{"$ref": ...}` object to the referenced
definition's body with nothing structurally decreasing, so the Python
function can recurse forever (claim C10); the embedding is fuel-indexed and
`none` marks both fuel exhaustion and the `AttributeError` a non-string
`$ref` value raises. -/

/-- `obj["$ref"].split("/")[-1]`: everything after the last `/` (the whole
string when there is none). -/
def lastComp (s : String) : String :=
  String.mk (s.data.foldl (fun acc c => if c == '/' then [] else acc ++ [c]) [])

/-- `defs.get(ref_key, {})`. -/
def defsGet (defs : List (String × Json)) (key : String) : Json :=
  (defs.lookup key).getD (Json.obj [])

/-- `dict.pop(key, ...)`: the mapping without that key. -/
def eraseField (fields : List (String × Json)) (key : String) :
    List (String × Json) :=
  fields.filter (fun kv => kv.1 != key)

mutual

/-- The inner `resolve_refs` closure, with the popped `$defs` as `defs`. -/
def resolve_refs (defs : List (String × Json)) : Nat → Json → Option Json
  | 0, _ => none
  | fuel + 1, j =>
    match j with
    | Json.obj kvs =>
      match kvs.lookup "$ref" with
      | some (Json.str s) =>
        resolve_refs defs fuel (defsGet defs (lastComp s))
      | some _ => none
      | none => (resolveFields defs fuel kvs).map Json.obj
    | Json.arr xs => (resolveElems defs fuel xs).map Json.arr
    | other => some other

/-- `{k: resolve_refs(v) for k, v in obj.items()}` (fuel decreases at every
step so the recursion is structural; `resolve_refs_total` shows enough fuel
always exists for acyclic definitions). -/
def resolveFields (defs : List (String × Json)) :
    Nat → List (String × Json) → Option (List (String × Json))
  | 0, _ => none
  | _ + 1, [] => some []
  | fuel + 1, (k, v) :: rest => do
    let v2 ← resolve_refs defs fuel v
    let rest2 ← resolveFields defs fuel rest
    return (k, v2) :: rest2

/-- `[resolve_refs(item) for item in obj]`. -/
def resolveElems (defs : List (String × Json)) :
    Nat → List Json → Option (List Json)
  | 0, _ => none
  | _ + 1, [] => some []
  | fuel + 1, x :: rest => do
    let x2 ← resolve_refs defs fuel x
    let rest2 ← resolveElems defs fuel rest
    return x2 :: rest2

end

/-- `inline_json_schema_defs`: pop `$defs` from the top level, then resolve.
A `$defs` value that is not a mapping is modelled as immediate failure (in
Python any later `defs.get` on it raises). -/
def inline_json_schema_defs (fuel : Nat) (schema : Json) : Option Json :=
  match schema with
  | Json.obj fields =>
    match fields.lookup "$defs" with
    | some (Json.obj defs) =>
      resolve_refs defs fuel (Json.obj (eraseField fields "$defs"))
    | some _ => none
    | none => resolve_refs [] fuel (Json.obj fields)
  | _ => none

mutual

/-- Does a `"$ref"` key occur anywhere in the value (inside objects and
inside lists, at any depth)? -/
def hasRefKey : Json → Bool
  | Json.obj kvs => hasRefKeyFields kvs
  | Json.arr xs => hasRefKeyElems xs
  | _ => false

def hasRefKeyFields : List (String × Json) → Bool
  | [] => false
  | (k, v) :: rest => k == "$ref" || hasRefKey v || hasRefKeyFields rest

def hasRefKeyElems : List Json → Bool
  | [] => false
  | x :: rest => hasRefKey x || hasRefKeyElems rest

end

/-! ## Tool data model and dispatcher (`tools.py`) -/

/-- `ToolCallRequest` (tools.py lines 35-37). -/
structure ToolCallRequest where
  function_name : String
  function_args : List (String × Json)

/-- `ToolCallRequestContainer` (tools.py lines 40-41). -/
structure ToolCallRequestContainer where
  tool_calls : List ToolCallRequest

/-- The `result` member of a `ToolCallResponse`: the invoked callable's
return value, or the text `traceback.format_exc()` captured. -/
inductive ToolResult where
  | value (j : Json)
  | trace (s : String)

/-- `ToolCallResponse` (tools.py lines 44-46). -/
structure ToolCallResponse where
  tool_call : ToolCallRequest
  result : ToolResult

/-- A Python callable registered as a tool: invoking it with keyword
arguments either returns a value or raises (with a message). -/
structure PyTool where
  run : List (String × Json) → Except String Json

/-- `traceback.format_exc()`: never the empty string (it always starts with
the traceback header). -/
def format_exc (msg : String) : String :=
  "Traceback (most recent call last):\n" ++ msg

/-- `call_tool` (tools.py lines 125-136): look the name up (a missing key
raises `KeyError` inside the same `try`), invoke, and capture any
exception's traceback as the result. -/
def call_tool (tools : List (String × PyTool)) (tc : ToolCallRequest) :
    ToolCallResponse :=
  match tools.lookup tc.function_name with
  | none =>
    { tool_call := tc
      result := .trace (format_exc ("KeyError: " ++ tc.function_name)) }
  | some t =>
    match t.run tc.function_args with
    | .ok v => { tool_call := tc, result := .value v }
    | .error e => { tool_call := tc, result := .trace (format_exc e) }

/-! ## Tool catalog builder (`function_to_schema`, tools.py lines 73-114) -/

/-- A parameter's declared annotation as a Python object: the six classes
`py_type_to_param_type` recognizes, or anything else (another class, a
generic alias such as `list[str]`, or `inspect.Parameter.empty` when the
annotation is missing), carried with its `__name__`. -/
inductive PyAnn where
  | pyStr
  | pyInt
  | pyFloat
  | pyBool
  | pyList
  | pyDict
  | otherAnn (typeName : String)

/-- One entry of `inspect.signature(function).parameters`. -/
structure PyParam where
  name : String
  ann : PyAnn
  /-- `parameter.default != inspect.Parameter.empty`. -/
  hasDefault : Bool

/-- What introspection sees of a Python callable. -/
structure PyFunc where
  name : String
  /-- `__doc__`: `none` when absent. -/
  doc : Option String
  params : List PyParam

/-- `py_type_to_param_type` (tools.py lines 73-87). -/
def py_type_to_param_type : PyAnn → String
  | .pyStr => "string"
  | .pyInt => "integer"
  | .pyFloat => "number"
  | .pyBool => "boolean"
  | .pyList => "array"
  | .pyDict => "object"
  | .otherAnn _ => "string"

/-- `annotation.__name__`, used for the per-parameter description. -/
def annName : PyAnn → String
  | .pyStr => "str"
  | .pyInt => "int"
  | .pyFloat => "float"
  | .pyBool => "bool"
  | .pyList => "list"
  | .pyDict => "dict"
  | .otherAnn n => n

/-- The `function` member of a `FunctionSchema` (tools.py lines 49-54):
`parameters` maps a parameter name to its `{"type", "description"}` pair. -/
structure FunctionSchemaFunction where
  name : String
  description : String
  parameters : List (String × String × String)
  required : List String

/-- `function_to_schema` (tools.py lines 90-114), without the `_callable`
back-reference. -/
def function_to_schema (f : PyFunc) : FunctionSchemaFunction :=
  { name := f.name
    description := f.doc.getD ""
    parameters :=
      f.params.filterMap fun p =>
        if p.name == "self" || p.name == "actor" then none
        else some (p.name, py_type_to_param_type p.ann, annName p.ann)
    required :=
      (f.params.filter fun p =>
        !p.hasDefault && !(p.name == "self" || p.name == "actor")).map (·.name) }

/-! ## Generation Orchestrator with tools (spec section 4.6) -/

/-- One option-valued map over a list (`none` as soon as one element maps to
`none`). -/
def mapOptionList (f : α → Option β) : List α → Option (List β)
  | [] => some []
  | x :: rest => do
    let y ← f x
    let rest2 ← mapOptionList f rest
    return y :: rest2

/-- Structural validation of one entry against the `ToolCallRequest` shape:
an object whose `function_name` is a string and whose `function_args` is an
object (extra members ignored, as pydantic does). -/
def parseToolCallRequest (j : Json) : Option ToolCallRequest :=
  match j with
  | Json.obj fields =>
    match fields.lookup "function_name", fields.lookup "function_args" with
    | some (Json.str n), some (Json.obj kvs) => some ⟨n, kvs⟩
    | _, _ => none
  | _ => none

/-- Structural validation against the tool-call-container shape
`{"tool_calls": [...]}` (`ToolCallRequestContainer.model_validate`). -/
def parseToolCallContainer (j : Json) : Option ToolCallRequestContainer :=
  match j with
  | Json.obj fields =>
    match fields.lookup "tool_calls" with
    | some (Json.arr entries) =>
      (mapOptionList parseToolCallRequest entries).map ToolCallRequestContainer.mk
    | _ => none
  | _ => none

/-- Why an orchestration run ends without a final answer. -/
inductive OrchError where
  /-- The scripted transport ran out of responses: the source protocol has no
  recursion ceiling, so a run is as long as the script feeding it. -/
  | scriptExhausted (history : List ToolCallResponse)
  | extractionFailed
  | validationFailed

/-- Modelled from the spec: the tool-call orchestration loop of
`PydanticOllamaClient.generate` (spec section 4.6).  The loop itself is
absent from `src/relative_world_ollama/client.py` — the `generate` there
takes no `tools` and returns after one round — while its callers
(`TooledOllamaEntity.generate_response` passes `tools=`) and its data
declarations (`ToolCallRequestContainer`, `call_tool` in `tools.py`) are in
the source.  Each round consumes the next scripted transport response,
extracts its JSON, and classifies it structurally against the tool-call
container shape: a container has each named tool dispatched through the
source's `call_tool`, the resulting `ToolCallResponse` entries appended to
the invocation history, and a further round issued with the original prompt
(the recursion re-derives the prompt from the updated history, which this
state-level model keeps implicit); anything else is validated against the
caller's response model and returned as the final answer together with the
raw transport response. -/
def orchestrate (tools : List (String × PyTool))
    (validate : Json → Except Unit α) :
    List String → List ToolCallResponse →
    Except OrchError (String × α × List ToolCallResponse)
  | [], history => .error (.scriptExhausted history)
  | raw :: rest, history =>
    match maybe_parse_json raw with
    | .error _ => .error .extractionFailed
    | .ok data =>
      match parseToolCallContainer data with
      | some container =>
        orchestrate tools validate rest
          (history ++ container.tool_calls.map (call_tool tools))
      | none =>
        match validate data with
        | .ok v => .ok (raw, v, history)
        | .error _ => .error .validationFailed

/-! ## Measures and predicates for the inliner proofs -/

mutual

/-- Number of constructors in a value (the measure for the totality and
identity arguments). -/
def jsonSize : Json → Nat
  | Json.obj kvs => 1 + sizeFields kvs
  | Json.arr xs => 1 + sizeElems xs
  | _ => 1

def sizeFields : List (String × Json) → Nat
  | [] => 0
  | (_, v) :: rest => 1 + jsonSize v + sizeFields rest

def sizeElems : List Json → Nat
  | [] => 0
  | x :: rest => 1 + jsonSize x + sizeElems rest

end

mutual

/-- Nesting depth of a value. -/
def jsonDepth : Json → Nat
  | Json.obj kvs => 1 + depthFields kvs
  | Json.arr xs => 1 + depthElems xs
  | _ => 0

def depthFields : List (String × Json) → Nat
  | [] => 0
  | (_, v) :: rest => max (jsonDepth v) (depthFields rest)

def depthElems : List Json → Nat
  | [] => 0
  | x :: rest => max (jsonDepth x) (depthElems rest)

end

mutual

/-- Every definition name a `$ref` anywhere in the value points at (the
last path component of every `"$ref"` string value, at any depth). -/
def refNames : Json → List String
  | Json.obj kvs => refNamesFields kvs
  | Json.arr xs => refNamesElems xs
  | _ => []

def refNamesFields : List (String × Json) → List String
  | [] => []
  | (k, v) :: rest =>
    (if k == "$ref" then
      match v with
      | Json.str s => [lastComp s]
      | _ => []
    else []) ++ refNames v ++ refNamesFields rest

def refNamesElems : List Json → List String
  | [] => []
  | x :: rest => refNames x ++ refNamesElems rest

end

def isStrJson : Json → Bool
  | Json.str _ => true
  | _ => false

mutual

/-- Every `"$ref"` member anywhere carries a string value (the setting of
the claims: pointers of the form `#/$defs/<name>`; a non-string value makes
the Python code raise `AttributeError`). -/
def refsWF : Json → Bool
  | Json.obj kvs => refsWFFields kvs
  | Json.arr xs => refsWFElems xs
  | _ => true

def refsWFFields : List (String × Json) → Bool
  | [] => true
  | (k, v) :: rest =>
    (!(k == "$ref") || isStrJson v) && refsWF v && refsWFFields rest

def refsWFElems : List Json → Bool
  | [] => true
  | x :: rest => refsWF x && refsWFElems rest

end

/-- Acyclicity of the `$ref` dependencies among the `$defs` entries, as a
rank witness: every reference inside a definition's body points at a
definition of strictly smaller rank.  For a finite definition table this is
exactly the absence of reference cycles. -/
def RankOK (rank : String → Nat) (defs : List (String × Json)) : Prop :=
  ∀ p ∈ defs, ∀ m ∈ refNames p.2, rank m < rank p.1

/-- The largest definition body size (bounds what a `$ref` jump can land
on). -/
def defsMaxSize (defs : List (String × Json)) : Nat :=
  (defs.map fun p => jsonSize p.2).foldr max 0

/-- Largest `rank + 1` over the reference names of a value (`0` when it has
none): the number of rank levels a resolution of the value can still
traverse. -/
def rankBoundOf (rank : String → Nat) (names : List String) : Nat :=
  names.foldr (fun m acc => max (rank m + 1) acc) 0

/-- Is the value an object carrying a top-level `$defs` member? -/
def topHasDefs : Json → Bool
  | Json.obj fields => (fields.lookup "$defs").isSome
  | _ => false

/-- Is the value an object with no top-level `$defs` member (the shape on
which a second inlining pass is the identity)? -/
def topObjNoDefs : Json → Bool
  | Json.obj fields => (fields.lookup "$defs").isNone
  | _ => false

/-! ## Concrete values for counterexamples and witnesses -/

/-- A schema with nested `$ref`/`$defs` indirection whose referenced
definition body itself carries a `$defs` member: substitution re-introduces
`$defs` at the top level of the once-inlined result, and the second pass
strips it. -/
def c8schema : Json :=
  Json.obj
    [("$ref", Json.str "#/$defs/A"),
     ("$defs",
      Json.obj
        [("A",
          Json.obj
            [("$defs", Json.obj [("X", Json.num "1")]),
             ("t", Json.str "object")])])]

def c8once : Json :=
  Json.obj [("$defs", Json.obj [("X", Json.num "1")]), ("t", Json.str "object")]

def c8twice : Json := Json.obj [("t", Json.str "object")]

/-- A self-referential definition table (`A` refers to `A`), as a schema
generator emits for a recursive model. -/
def cycDefs : List (String × Json) :=
  [("A", Json.obj [("$ref", Json.str "#/$defs/A")])]

def cycObj : Json := Json.obj [("$ref", Json.str "#/$defs/A")]

def cycSchema : Json :=
  Json.obj [("$ref", Json.str "#/$defs/A"), ("$defs", Json.obj cycDefs)]

/-- Scenario C's tool: returns the weather for the `city` argument, raising
`TypeError` when it is missing. -/
def weatherTool : PyTool :=
  ⟨fun args =>
    match args.lookup "city" with
    | some (Json.str c) => .ok (Json.str ("Sunny in " ++ c))
    | _ => .error "TypeError: check_weather() missing argument: city"⟩

def weatherTools : List (String × PyTool) := [("check_weather", weatherTool)]

def weatherContainerText : String :=
  "\x7b\"tool_calls\": [\x7b\"function_name\": \"check_weather\", \"function_args\": \x7b\"city\": \"Paris\"\x7d\x7d]\x7d"

def weatherFinalText : String := "\x7b\"response\": \"Sunny in Paris\"\x7d"

def weatherData : Json :=
  Json.obj
    [("tool_calls",
      Json.arr
        [Json.obj
          [("function_name", Json.str "check_weather"),
           ("function_args", Json.obj [("city", Json.str "Paris")])]])]

def weatherContainer : ToolCallRequestContainer :=
  ⟨[⟨"check_weather", [("city", Json.str "Paris")]⟩]⟩

/-- An acyclic schema with one level of indirection, for the termination
witness. -/
def acyFields : List (String × Json) :=
  [("a", Json.obj [("$ref", Json.str "#/$defs/A")]),
   ("$defs", Json.obj [("A", Json.obj [("t", Json.str "x")])])]

def acyDefs : List (String × Json) := [("A", Json.obj [("t", Json.str "x")])]

/-- What inlining the acyclic example produces. -/
def acyOut : Json := Json.obj [("a", Json.obj [("t", Json.str "x")])]

/-- An introspected callable for the catalog-builder witness:
`def check_weather(self, city: str, retries: int = 3)` with a docstring. -/
def demoFunc : PyFunc :=
  { name := "check_weather"
    doc := some "Look up the weather."
    params :=
      [⟨"self", .otherAnn "_empty", false⟩,
       ⟨"city", .pyStr, false⟩,
       ⟨"retries", .pyInt, true⟩] }

/-! ## Theorems -/

theorem format_exc_ne (m : String) : format_exc m ≠ "" := by
  intro h
  have h1 : (format_exc m).length = 0 := by rw [h]; rfl
  have h2 : (format_exc m).length =
      ("Traceback (most recent call last):\n").length + m.length := by
    show ("Traceback (most recent call last):\n" ++ m).length = _
    rw [String.length_append]
  have h3 : ("Traceback (most recent call last):\n").length = 35 := rfl
  omega

/-- C1 (code_bug evaluation): on text that neither parses as JSON nor
contains a json-tagged fence — the test suite's own input `"bad_json"` —
`maybe_parse_json` does not raise: it falls off the end and returns Python
`None` (JSON null).  Consequently `generate` triggers zero repair sub-calls
on that text (the claim says exactly one) and instead fails later, when
`model_validate` sees `None`. -/
theorem maybe_parse_json_silent_on_plain_garbage :
    maybe_parse_json "bad_json" = Except.ok Json.null ∧
    (generate validateBasicModel "bad_json" "\x7b\"response\": \"x\"\x7d").repairCalls = 0 ∧
    (generate validateBasicModel "bad_json" "\x7b\"response\": \"x\"\x7d").result =
      Except.error GenError.validationError :=
  ⟨rfl, rfl, rfl⟩

/-- C2 (code_bug evaluation): on a successful call — the test suite's own
scenario, transport text `{"response": "value"}` — the source `generate`
returns the validated instance alone (here the validated field value
`"value"` of the `{response: str}` model); there is no raw-response
component in its return value, while `test_generate` and
`OllamaEntity.update` unpack two. -/
theorem generate_returns_validated_instance_only :
    (generate validateBasicModel "\x7b\"response\": \"value\"\x7d" "").result =
      Except.ok "value" ∧
    (generate validateBasicModel "\x7b\"response\": \"value\"\x7d" "").repairCalls = 0 :=
  ⟨rfl, rfl⟩

/-- C4 (code_bug evaluation): when the repair call's output — the test
suite's own stub `"bad_json"` — fails extraction with no fence present,
`fix_json_response` returns normally with Python `None` instead of raising
`UnparsableResponseError`, contradicting `test_fix_json_response_error`.
(When the output does contain a fence with undecodable content, the raise
does carry the original text: second conjunct.) -/
theorem fix_json_response_silent_on_plain_garbage :
    fix_json_response "\x7b\"bad\": " "bad_json" = Except.ok Json.null ∧
    fix_json_response "\x7b\"bad\": " "x``` ```json\nnope\n``` y" =
      Except.error "\x7b\"bad\": " :=
  ⟨rfl, rfl⟩

/-- C5: `call_tool` is total — for every catalog and every request,
including a `function_name` absent from the catalog and a callable that
raises, it returns a `ToolCallResponse` carrying the request itself whose
`result` is either the callable's return value or a non-empty captured
failure trace; no exception propagates (the embedding's totality mirrors
the source's `try/except Exception` around both the lookup and the
invocation). -/
theorem call_tool_never_raises (tools : List (String × PyTool))
    (tc : ToolCallRequest) :
    (call_tool tools tc).tool_call = tc ∧
    ((∃ t v, tools.lookup tc.function_name = some t ∧
        t.run tc.function_args = Except.ok v ∧
        (call_tool tools tc).result = ToolResult.value v) ∨
      (∃ s, (call_tool tools tc).result = ToolResult.trace s ∧ s ≠ "")) := by
  cases h : tools.lookup tc.function_name with
  | none =>
    exact ⟨by simp [call_tool, h],
      Or.inr ⟨format_exc ("KeyError: " ++ tc.function_name),
        by simp [call_tool, h], format_exc_ne _⟩⟩
  | some t =>
    cases hr : t.run tc.function_args with
    | ok v =>
      exact ⟨by simp [call_tool, h, hr],
        Or.inl ⟨t, v, rfl, hr, by simp [call_tool, h, hr]⟩⟩
    | error e =>
      exact ⟨by simp [call_tool, h, hr],
        Or.inr ⟨format_exc e, by simp [call_tool, h, hr], format_exc_ne _⟩⟩

/-- C6: the direct-JSON-first policy.  Whenever the whole text decodes as
bare JSON, `maybe_parse_json` returns exactly that decode — the fenced-block
search is never consulted, so a json-tagged fenced block elsewhere in the
string cannot win.  (This is stronger than the claim as written: under
strict decoding a bare-JSON text can never also match the code's fence
regex, which demands a raw newline — a character strict JSON forbids inside
strings — so the claim's literal hypothesis is satisfiable only in the
weaker sense of fence-looking content inside string values, which the
witness exercises.) -/
theorem maybe_parse_json_direct_first (content : String) (j : Json)
    (h : orjsonLoads content = some j) : maybe_parse_json content = Except.ok j := by
  unfold maybe_parse_json
  rw [h]

/-- C6 witness: a text that is valid bare JSON and contains fence-looking
backtick content; the extractor returns the bare decode. -/
theorem maybe_parse_json_direct_first_witness :
    maybe_parse_json "\x7b\"note\": \"see ```json ... ``` above\"\x7d" =
      Except.ok (Json.obj [("note", Json.str "see ```json ... ``` above")]) :=
  maybe_parse_json_direct_first _ _ rfl

/-- C3 (spec-modelled orchestrator, dispatching through the source's
`call_tool`): when tools are configured and the parsed response validates
structurally against the tool-call-container shape, the orchestrator
dispatches each named tool, appends the resulting `ToolCallResponse`
entries to the invocation history, and issues a further generation round —
it does not return the container as the final answer. -/
theorem orchestrate_dispatches_tool_calls {α : Type}
    (tools : List (String × PyTool)) (validate : Json → Except Unit α)
    (raw : String) (rest : List String) (history : List ToolCallResponse)
    (data : Json) (container : ToolCallRequestContainer)
    (h1 : maybe_parse_json raw = Except.ok data)
    (h2 : parseToolCallContainer data = some container) :
    orchestrate tools validate (raw :: rest) history =
      orchestrate tools validate rest
        (history ++ container.tool_calls.map (call_tool tools)) := by
  simp [orchestrate, h1, h2]

/-- C3 witness, the spec's Scenario C: a transport script whose first
response names `check_weather` with `{"city": "Paris"}` and whose second is
plain schema-conforming JSON; the orchestrator dispatches, records the tool
result, re-prompts, and the second round yields the final answer. -/
theorem orchestrate_dispatches_tool_calls_witness :
    orchestrate weatherTools validateBasicModel
        [weatherContainerText, weatherFinalText] [] =
      orchestrate weatherTools validateBasicModel [weatherFinalText]
        ([] ++ weatherContainer.tool_calls.map (call_tool weatherTools)) ∧
    orchestrate weatherTools validateBasicModel
        [weatherContainerText, weatherFinalText] [] =
      Except.ok (weatherFinalText, "Sunny in Paris",
        [⟨⟨"check_weather", [("city", Json.str "Paris")]⟩,
          ToolResult.value (Json.str "Sunny in Paris")⟩]) :=
  ⟨orchestrate_dispatches_tool_calls weatherTools validateBasicModel
      weatherContainerText [weatherFinalText] [] weatherData weatherContainer
      rfl rfl,
    rfl⟩

/-- C9: the catalog builder.  A name is in `required` exactly when some
introspected parameter carries it, has no default, and is not `self` or
`actor`; the emitted parameter mapping consists exactly of the
non-`self`/`actor` parameters, each tagged by `py_type_to_param_type`; every
tag is one of the six wire-level tags, with `"string"` for any unrecognized
or missing annotation; and the description is the docstring, or the empty
string when the callable has none. -/
theorem function_to_schema_spec (f : PyFunc) :
    (∀ n, n ∈ (function_to_schema f).required ↔
      ∃ p, p ∈ f.params ∧ p.name = n ∧ p.hasDefault = false ∧
        n ≠ "self" ∧ n ≠ "actor") ∧
    (∀ e, e ∈ (function_to_schema f).parameters ↔
      ∃ p, p ∈ f.params ∧ p.name ≠ "self" ∧ p.name ≠ "actor" ∧
        e = (p.name, py_type_to_param_type p.ann, annName p.ann)) ∧
    (∀ a : PyAnn, py_type_to_param_type a ∈
      ["string", "integer", "number", "boolean", "array", "object"]) ∧
    (∀ s, py_type_to_param_type (PyAnn.otherAnn s) = "string") ∧
    (function_to_schema f).description = f.doc.getD "" := by
  refine ⟨?_, ?_, ?_, fun _ => rfl, rfl⟩
  · intro n
    simp only [function_to_schema, List.mem_map, List.mem_filter,
      Bool.and_eq_true, Bool.not_eq_true', Bool.or_eq_true, beq_iff_eq,
      Bool.not_eq_true, Bool.or_eq_false_iff, beq_eq_false_iff_ne, ne_eq]
    constructor
    · rintro ⟨p, ⟨hp, hd, hs, ha⟩, hn⟩
      subst hn
      exact ⟨p, hp, rfl, hd, hs, ha⟩
    · rintro ⟨p, hp, hn, hd, hs, ha⟩
      subst hn
      exact ⟨p, ⟨hp, hd, hs, ha⟩, rfl⟩
  · intro e
    simp only [function_to_schema, List.mem_filterMap, Bool.or_eq_true,
      beq_iff_eq]
    constructor
    · rintro ⟨p, hp, he⟩
      by_cases hs : p.name = "self"
      · simp [hs] at he
      · by_cases ha : p.name = "actor"
        · simp [hs, ha] at he
        · simp [hs, ha] at he
          exact ⟨p, hp, by simp [hs, ha, ← he]⟩
    · rintro ⟨p, hp, hs, ha, he⟩
      exact ⟨p, hp, by simp [hs, ha, he]⟩
  · intro a
    cases a <;> simp [py_type_to_param_type]


/-! ## Lemmas about the inliner -/


theorem lookup_mem_json {kvs : List (String × Json)} {key : String} {v : Json}
    (h : kvs.lookup key = some v) : (key, v) ∈ kvs := by
  induction kvs with
  | nil => simp [List.lookup] at h
  | cons p rest ih =>
    obtain ⟨k, w⟩ := p
    rw [List.lookup] at h
    by_cases hk : key = k
    · subst hk
      simp at h
      simp [h]
    · have : (key == k) = false := by simp [hk]
      rw [this] at h
      exact List.mem_cons_of_mem _ (ih h)

theorem lookup_none_keys {kvs : List (String × Json)} {key : String}
    (h : kvs.lookup key = none) : ∀ p ∈ kvs, p.1 ≠ key := by
  induction kvs with
  | nil => simp
  | cons p rest ih =>
    obtain ⟨k, w⟩ := p
    rw [List.lookup] at h
    by_cases hk : key = k
    · subst hk; simp at h
    · have hb : (key == k) = false := by simp [hk]
      rw [hb] at h
      intro q hq
      rcases List.mem_cons.mp hq with rfl | hq2
      · simpa using fun e => hk e.symm
      · exact ih h q hq2

theorem lookup_none_of_keys {kvs : List (String × Json)} {key : String}
    (h : ∀ p ∈ kvs, p.1 ≠ key) : kvs.lookup key = none := by
  induction kvs with
  | nil => rfl
  | cons p rest ih =>
    obtain ⟨k, w⟩ := p
    rw [List.lookup]
    have hk : k ≠ key := h (k, w) (List.mem_cons_self _ _)
    have hb : (key == k) = false := by simp; exact fun e => hk e.symm
    rw [hb]
    exact ih fun q hq => h q (List.mem_cons_of_mem _ hq)

theorem hasRefKeyFields_false_iff (kvs : List (String × Json)) :
    hasRefKeyFields kvs = false ↔
      ∀ p ∈ kvs, p.1 ≠ "$ref" ∧ hasRefKey p.2 = false := by
  induction kvs with
  | nil => simp [hasRefKeyFields]
  | cons p rest ih =>
    obtain ⟨k, v⟩ := p
    simp [hasRefKeyFields, ih, Bool.or_eq_false_iff, beq_eq_false_iff_ne, and_assoc]

theorem hasRefKeyElems_false_iff (xs : List Json) :
    hasRefKeyElems xs = false ↔ ∀ x ∈ xs, hasRefKey x = false := by
  induction xs with
  | nil => simp [hasRefKeyElems]
  | cons x rest ih =>
    simp [hasRefKeyElems, ih, Bool.or_eq_false_iff]

theorem resolve_clean_all (fuel : Nat) :
    (∀ defs j r, resolve_refs defs fuel j = some r → hasRefKey r = false) ∧
    (∀ defs kvs rs, resolveFields defs fuel kvs = some rs →
      rs.map Prod.fst = kvs.map Prod.fst ∧ ∀ p ∈ rs, hasRefKey p.2 = false) ∧
    (∀ defs xs ys, resolveElems defs fuel xs = some ys →
      ∀ y ∈ ys, hasRefKey y = false) := by
  induction fuel with
  | zero =>
    refine ⟨?_, ?_, ?_⟩ <;> intro defs a b h <;>
      simp [resolve_refs, resolveFields, resolveElems] at h
  | succ n ih =>
    obtain ⟨ihJ, ihF, ihE⟩ := ih
    refine ⟨?_, ?_, ?_⟩
    · intro defs j r h
      cases j with
      | obj kvs =>
        rw [resolve_refs] at h
        cases hl : kvs.lookup "$ref" with
        | some w =>
          rw [hl] at h
          cases w with
          | str s => exact ihJ defs _ r h
          | null => exact absurd h (by simp)
          | bool b => exact absurd h (by simp)
          | num l => exact absurd h (by simp)
          | arr xs => exact absurd h (by simp)
          | obj f2 => exact absurd h (by simp)
        | none =>
          rw [hl] at h
          simp only [Option.map_eq_some'] at h
          obtain ⟨rs, hrs, rfl⟩ := h
          have hkeys := (ihF defs kvs rs hrs).1
          have hvals := (ihF defs kvs rs hrs).2
          show hasRefKeyFields rs = false
          rw [hasRefKeyFields_false_iff]
          intro p hp
          refine ⟨?_, hvals p hp⟩
          have : p.1 ∈ rs.map Prod.fst := List.mem_map_of_mem _ hp
          rw [hkeys] at this
          obtain ⟨q, hq, hq1⟩ := List.mem_map.mp this
          have := lookup_none_keys hl q hq
          rw [hq1] at this
          exact this
      | arr xs =>
        rw [resolve_refs] at h
        simp only [Option.map_eq_some'] at h
        obtain ⟨ys, hys, rfl⟩ := h
        show hasRefKeyElems ys = false
        rw [hasRefKeyElems_false_iff]
        exact ihE defs xs ys hys
      | null => simp only [resolve_refs, Option.some.injEq] at h; subst h; rfl
      | bool b => simp only [resolve_refs, Option.some.injEq] at h; subst h; rfl
      | num l => simp only [resolve_refs, Option.some.injEq] at h; subst h; rfl
      | str s => simp only [resolve_refs, Option.some.injEq] at h; subst h; rfl
    · intro defs kvs rs h
      cases kvs with
      | nil =>
        rw [resolveFields] at h
        cases h
        simp
      | cons p rest =>
        obtain ⟨k, v⟩ := p
        rw [resolveFields] at h
        simp only [Option.bind_eq_bind, Option.bind_eq_some, Option.pure_def,
          Option.some.injEq] at h
        obtain ⟨v2, hv2, rest2, hrest2, rfl⟩ := h
        have hrest := ihF defs rest rest2 hrest2
        constructor
        · simpa using hrest.1
        · intro q hq
          rcases List.mem_cons.mp hq with rfl | hq2
          · exact ihJ defs v v2 hv2
          · exact hrest.2 q hq2
    · intro defs xs ys h
      cases xs with
      | nil => rw [resolveElems] at h; cases h; simp
      | cons x rest =>
        rw [resolveElems] at h
        simp only [Option.bind_eq_bind, Option.bind_eq_some, Option.pure_def,
          Option.some.injEq] at h
        obtain ⟨y, hy, rest2, hrest2, rfl⟩ := h
        intro z hz
        rcases List.mem_cons.mp hz with rfl | hz2
        · exact ihJ defs x z hy
        · exact ihE defs rest rest2 hrest2 z hz2

theorem resolve_id_all (fuel : Nat) :
    (∀ defs j, hasRefKey j = false → jsonSize j < fuel →
      resolve_refs defs fuel j = some j) ∧
    (∀ defs kvs, (∀ p ∈ kvs, p.1 ≠ "$ref" ∧ hasRefKey p.2 = false) →
      sizeFields kvs < fuel → resolveFields defs fuel kvs = some kvs) ∧
    (∀ defs xs, (∀ x ∈ xs, hasRefKey x = false) →
      sizeElems xs < fuel → resolveElems defs fuel xs = some xs) := by
  induction fuel with
  | zero => refine ⟨?_, ?_, ?_⟩ <;> intro defs a ha hs <;> omega
  | succ n ih =>
    obtain ⟨ihJ, ihF, ihE⟩ := ih
    refine ⟨?_, ?_, ?_⟩
    · intro defs j hclean hsize
      cases j with
      | obj kvs =>
        have hprops := (hasRefKeyFields_false_iff kvs).mp hclean
        have hlook : kvs.lookup "$ref" = none :=
          lookup_none_of_keys fun p hp => (hprops p hp).1
        rw [resolve_refs, hlook]
        have hsf : sizeFields kvs < n := by
          have : jsonSize (Json.obj kvs) = 1 + sizeFields kvs := rfl
          omega
        rw [ihF defs kvs hprops hsf]
        rfl
      | arr xs =>
        have hprops := (hasRefKeyElems_false_iff xs).mp hclean
        rw [resolve_refs]
        have hse : sizeElems xs < n := by
          have : jsonSize (Json.arr xs) = 1 + sizeElems xs := rfl
          omega
        rw [ihE defs xs hprops hse]
        rfl
      | null => rfl
      | bool b => rfl
      | num l => rfl
      | str s => rfl
    · intro defs kvs hprops hsize
      cases kvs with
      | nil => rfl
      | cons p rest =>
        obtain ⟨k, v⟩ := p
        have hv := hprops (k, v) (List.mem_cons_self _ _)
        have hrest : ∀ q ∈ rest, q.1 ≠ "$ref" ∧ hasRefKey q.2 = false :=
          fun q hq => hprops q (List.mem_cons_of_mem _ hq)
        have hsz : sizeFields ((k, v) :: rest) = 1 + jsonSize v + sizeFields rest := rfl
        rw [resolveFields]
        rw [ihJ defs v hv.2 (by omega), ihF defs rest hrest (by omega)]
        rfl
    · intro defs xs hprops hsize
      cases xs with
      | nil => rfl
      | cons x rest =>
        have hx := hprops x (List.mem_cons_self _ _)
        have hrest : ∀ y ∈ rest, hasRefKey y = false :=
          fun y hy => hprops y (List.mem_cons_of_mem _ hy)
        have hsz : sizeElems (x :: rest) = 1 + jsonSize x + sizeElems rest := rfl
        rw [resolveElems]
        rw [ihJ defs x hx (by omega), ihE defs rest hrest (by omega)]
        rfl

theorem resolve_mono_all : ∀ f g, f ≤ g →
    (∀ defs j r, resolve_refs defs f j = some r → resolve_refs defs g j = some r) ∧
    (∀ defs kvs rs, resolveFields defs f kvs = some rs →
      resolveFields defs g kvs = some rs) ∧
    (∀ defs xs ys, resolveElems defs f xs = some ys →
      resolveElems defs g xs = some ys) := by
  intro f
  induction f with
  | zero =>
    intro g _
    refine ⟨?_, ?_, ?_⟩ <;> intro defs a b h <;>
      simp [resolve_refs, resolveFields, resolveElems] at h
  | succ n ih =>
    intro g hg
    cases g with
    | zero => omega
    | succ m =>
      have hnm : n ≤ m := by omega
      obtain ⟨ihJ, ihF, ihE⟩ := ih m hnm
      refine ⟨?_, ?_, ?_⟩
      · intro defs j r h
        cases j with
        | obj kvs =>
          rw [resolve_refs] at h ⊢
          cases hl : kvs.lookup "$ref" with
          | some w =>
            rw [hl] at h
            cases w with
            | str s => exact ihJ defs _ r h
            | null => exact absurd h (by simp)
            | bool b => exact absurd h (by simp)
            | num l => exact absurd h (by simp)
            | arr xs => exact absurd h (by simp)
            | obj f2 => exact absurd h (by simp)
          | none =>
            rw [hl] at h
            simp only [Option.map_eq_some'] at h ⊢
            obtain ⟨rs, hrs, rfl⟩ := h
            exact ⟨rs, ihF defs kvs rs hrs, rfl⟩
        | arr xs =>
          rw [resolve_refs] at h ⊢
          simp only [Option.map_eq_some'] at h ⊢
          obtain ⟨ys, hys, rfl⟩ := h
          exact ⟨ys, ihE defs xs ys hys, rfl⟩
        | null => exact h
        | bool b => exact h
        | num l => exact h
        | str s => exact h
      · intro defs kvs rs h
        cases kvs with
        | nil => exact h
        | cons p rest =>
          obtain ⟨k, v⟩ := p
          rw [resolveFields] at h ⊢
          simp only [Option.bind_eq_bind, Option.bind_eq_some, Option.pure_def,
            Option.some.injEq] at h ⊢
          obtain ⟨v2, hv2, rest2, hrest2, rfl⟩ := h
          exact ⟨v2, ihJ defs v v2 hv2, rest2, ihF defs rest rest2 hrest2, rfl⟩
      · intro defs xs ys h
        cases xs with
        | nil => exact h
        | cons x rest =>
          rw [resolveElems] at h ⊢
          simp only [Option.bind_eq_bind, Option.bind_eq_some, Option.pure_def,
            Option.some.injEq] at h ⊢
          obtain ⟨y, hy, rest2, hrest2, rfl⟩ := h
          exact ⟨y, ihJ defs x y hy, rest2, ihE defs rest rest2 hrest2, rfl⟩

theorem rank_mem_le (rank : String → Nat) {m : String} {names : List String}
    (h : m ∈ names) : rank m + 1 ≤ rankBoundOf rank names := by
  induction names with
  | nil => simp at h
  | cons x rest ih =>
    rcases List.mem_cons.mp h with rfl | h2
    · exact le_max_left _ _
    · exact le_trans (ih h2) (le_max_right _ _)

theorem rankBound_le (rank : String → Nat) {names : List String} {B : Nat}
    (h : ∀ m ∈ names, rank m + 1 ≤ B) : rankBoundOf rank names ≤ B := by
  induction names with
  | nil => exact Nat.zero_le B
  | cons x rest ih =>
    refine max_le (h x (List.mem_cons_self _ _)) (ih fun m hm => h m ?_)
    exact List.mem_cons_of_mem _ hm

theorem rankBound_mono (rank : String → Nat) {n1 n2 : List String}
    (h : ∀ m ∈ n1, m ∈ n2) : rankBoundOf rank n1 ≤ rankBoundOf rank n2 :=
  rankBound_le rank fun m hm => rank_mem_le rank (h m hm)

theorem refNames_field_mem {kvs : List (String × Json)} {k : String} {v : Json}
    (h : (k, v) ∈ kvs) : ∀ m ∈ refNames v, m ∈ refNamesFields kvs := by
  induction kvs with
  | nil => simp at h
  | cons p rest ih =>
    intro m hm
    obtain ⟨k2, v2⟩ := p
    simp only [refNamesFields, List.mem_append]
    rcases List.mem_cons.mp h with he | h2
    · cases he
      exact Or.inl (Or.inr hm)
    · exact Or.inr (ih h2 m hm)

theorem refNames_elem_mem {xs : List Json} {x : Json}
    (h : x ∈ xs) : ∀ m ∈ refNames x, m ∈ refNamesElems xs := by
  induction xs with
  | nil => simp at h
  | cons y rest ih =>
    intro m hm
    simp only [refNamesElems, List.mem_append]
    rcases List.mem_cons.mp h with rfl | h2
    · exact Or.inl hm
    · exact Or.inr (ih h2 m hm)

theorem refNames_ref_mem {kvs : List (String × Json)} {s : String}
    (h : ("$ref", Json.str s) ∈ kvs) : lastComp s ∈ refNamesFields kvs := by
  induction kvs with
  | nil => simp at h
  | cons p rest ih =>
    obtain ⟨k2, v2⟩ := p
    simp only [refNamesFields, List.mem_append]
    rcases List.mem_cons.mp h with he | h2
    · cases he
      exact Or.inl (Or.inl (by simp))
    · exact Or.inr (ih h2)

theorem size_le_defsMaxSize {defs : List (String × Json)} {p : String × Json}
    (h : p ∈ defs) : jsonSize p.2 ≤ defsMaxSize defs := by
  induction defs with
  | nil => simp at h
  | cons q rest ih =>
    rcases List.mem_cons.mp h with rfl | h2
    · simp only [defsMaxSize, List.map_cons, List.foldr_cons]
      exact le_max_left _ _
    · refine le_trans (ih h2) ?_
      simp only [defsMaxSize, List.map_cons, List.foldr_cons]
      exact le_max_right _ _

theorem jsonSize_defsGet (defs : List (String × Json)) (key : String) :
    jsonSize (defsGet defs key) ≤ defsMaxSize defs + 1 := by
  unfold defsGet
  cases h : defs.lookup key with
  | none =>
    simp only [Option.getD_none]
    have h1 : jsonSize (Json.obj []) = 1 := rfl
    omega
  | some body =>
    simp only [Option.getD_some]
    exact le_trans (size_le_defsMaxSize (lookup_mem_json h)) (Nat.le_succ _)


theorem refsWFFields_iff (kvs : List (String × Json)) :
    refsWFFields kvs = true ↔
      ∀ p ∈ kvs, (p.1 = "$ref" → isStrJson p.2 = true) ∧ refsWF p.2 = true := by
  induction kvs with
  | nil => simp [refsWFFields]
  | cons p rest ih =>
    obtain ⟨k, v⟩ := p
    simp only [refsWFFields, Bool.and_eq_true, Bool.or_eq_true,
      Bool.not_eq_true', beq_eq_false_iff_ne, ne_eq, ih, List.mem_cons]
    constructor
    · rintro ⟨⟨h1, h2⟩, h3⟩
      intro q hq
      rcases hq with rfl | hq2
      · refine ⟨?_, h2⟩
        intro hk
        rcases h1 with hne | hs
        · exact absurd hk hne
        · exact hs
      · exact h3 q hq2
    · intro h
      have hself := h (k, v) (Or.inl rfl)
      refine ⟨⟨?_, hself.2⟩, fun q hq => h q (Or.inr hq)⟩
      by_cases hk : k = "$ref"
      · exact Or.inr (hself.1 hk)
      · exact Or.inl hk

theorem refsWFElems_iff (xs : List Json) :
    refsWFElems xs = true ↔ ∀ x ∈ xs, refsWF x = true := by
  induction xs with
  | nil => simp [refsWFElems]
  | cons x rest ih =>
    simp [refsWFElems, Bool.and_eq_true, ih]

theorem refsWF_defsGet {defs : List (String × Json)}
    (hW : ∀ p ∈ defs, refsWF p.2 = true) (key : String) :
    refsWF (defsGet defs key) = true := by
  unfold defsGet
  cases h : defs.lookup key with
  | none => rfl
  | some body =>
    simp only [Option.getD_some]
    exact hW (key, body) (lookup_mem_json h)

theorem rankBound_defsGet {defs : List (String × Json)} {rank : String → Nat}
    (hR : RankOK rank defs) (key : String) :
    rankBoundOf rank (refNames (defsGet defs key)) ≤ rank key := by
  unfold defsGet
  cases h : defs.lookup key with
  | none => exact Nat.zero_le _
  | some body =>
    simp only [Option.getD_some]
    exact rankBound_le rank fun m hm => hR (key, body) (lookup_mem_json h) m hm

theorem jump_measure_le {rb tgtrb rm K st so N : Nat}
    (h1 : rm + 1 ≤ rb) (h2 : tgtrb ≤ rm) (h3 : st ≤ K - 1) (hK : 2 ≤ K)
    (h4 : rb * K + so ≤ N) (h5 : 1 ≤ so) :
    tgtrb * K + st ≤ N - 1 := by
  have hA : tgtrb * K ≤ rm * K := Nat.mul_le_mul_right K h2
  have hB : rm * K + K ≤ rb * K := by
    have := Nat.mul_le_mul_right K h1
    rwa [Nat.succ_mul] at this
  generalize tgtrb * K = A at hA ⊢
  generalize rm * K = B at hA hB
  generalize rb * K = C at hB h4
  omega

theorem descend_measure_le {rbv rbf K sv tot N : Nat}
    (h1 : rbv ≤ rbf) (hs : sv + 1 ≤ tot) (h2 : rbf * K + tot ≤ N) :
    rbv * K + sv ≤ N - 1 := by
  have hA : rbv * K ≤ rbf * K := Nat.mul_le_mul_right K h1
  generalize rbv * K = A at hA ⊢
  generalize rbf * K = B at hA h2
  omega

theorem refNamesFields_rest_mem {k : String} {v : Json}
    {rest : List (String × Json)} :
    ∀ m ∈ refNamesFields rest, m ∈ refNamesFields ((k, v) :: rest) := by
  intro m hm
  simp only [refNamesFields, List.mem_append]
  exact Or.inr hm

theorem refNamesElems_rest_mem {x : Json} {rest : List Json} :
    ∀ m ∈ refNamesElems rest, m ∈ refNamesElems (x :: rest) := by
  intro m hm
  simp only [refNamesElems, List.mem_append]
  exact Or.inr hm

theorem resolve_total_all (defs : List (String × Json)) (rank : String → Nat)
    (hR : RankOK rank defs) (hW : ∀ p ∈ defs, refsWF p.2 = true) :
    ∀ N : Nat,
      (∀ j, refsWF j = true →
        rankBoundOf rank (refNames j) * (defsMaxSize defs + 2) + jsonSize j ≤ N →
        ∃ f, (resolve_refs defs f j).isSome) ∧
      (∀ kvs, refsWFFields kvs = true →
        rankBoundOf rank (refNamesFields kvs) * (defsMaxSize defs + 2) +
          sizeFields kvs ≤ N →
        ∃ f, (resolveFields defs f kvs).isSome) ∧
      (∀ xs, refsWFElems xs = true →
        rankBoundOf rank (refNamesElems xs) * (defsMaxSize defs + 2) +
          sizeElems xs ≤ N →
        ∃ f, (resolveElems defs f xs).isSome) := by
  intro N
  induction N using Nat.strong_induction_on with
  | _ N ihN =>
    refine ⟨?_, ?_, ?_⟩
    · intro j hwf hm
      cases j with
      | obj kvs =>
        have hrn : refNames (Json.obj kvs) = refNamesFields kvs := rfl
        rw [hrn] at hm
        have hsz : jsonSize (Json.obj kvs) = 1 + sizeFields kvs := rfl
        rw [hsz] at hm
        cases hl : kvs.lookup "$ref" with
        | some w =>
          have hmem := lookup_mem_json hl
          have hwfF : refsWFFields kvs = true := hwf
          have hprops := (refsWFFields_iff kvs).mp hwfF
          have hstr : isStrJson w = true := (hprops _ hmem).1 rfl
          cases w with
          | str s =>
            have hmemref : lastComp s ∈ refNamesFields kvs := refNames_ref_mem hmem
            have hrb : rank (lastComp s) + 1 ≤
                rankBoundOf rank (refNamesFields kvs) := rank_mem_le rank hmemref
            have htjt : rankBoundOf rank (refNames (defsGet defs (lastComp s))) ≤
                rank (lastComp s) := rankBound_defsGet hR _
            have hts : jsonSize (defsGet defs (lastComp s)) ≤ defsMaxSize defs + 1 :=
              jsonSize_defsGet defs _
            have hmt : rankBoundOf rank (refNames (defsGet defs (lastComp s))) *
                (defsMaxSize defs + 2) + jsonSize (defsGet defs (lastComp s)) ≤
                N - 1 :=
              jump_measure_le hrb htjt (by omega) (by omega) hm (by omega)
            have hwft : refsWF (defsGet defs (lastComp s)) = true :=
              refsWF_defsGet hW _
            have hszN : 1 + sizeFields kvs ≤ N :=
              le_trans (Nat.le_add_left _ _) hm
            obtain ⟨hJ, _, _⟩ := ihN (N - 1) (by omega)
            obtain ⟨f, hf⟩ := hJ _ hwft hmt
            refine ⟨f + 1, ?_⟩
            rw [resolve_refs, hl]
            exact hf
          | null => exact absurd hstr (by simp [isStrJson])
          | bool b => exact absurd hstr (by simp [isStrJson])
          | num l => exact absurd hstr (by simp [isStrJson])
          | arr xs => exact absurd hstr (by simp [isStrJson])
          | obj f2 => exact absurd hstr (by simp [isStrJson])
        | none =>
          have hwfF : refsWFFields kvs = true := hwf
          have hmf : rankBoundOf rank (refNamesFields kvs) *
              (defsMaxSize defs + 2) + sizeFields kvs ≤ N - 1 :=
            descend_measure_le (le_refl _) (by omega) hm
          have hszN : 1 + sizeFields kvs ≤ N :=
            le_trans (Nat.le_add_left _ _) hm
          obtain ⟨_, hF, _⟩ := ihN (N - 1) (by omega)
          obtain ⟨f, hf⟩ := hF kvs hwfF hmf
          refine ⟨f + 1, ?_⟩
          rw [resolve_refs, hl]
          rcases Option.isSome_iff_exists.mp hf with ⟨rs, hrs⟩
          simp [hrs]
      | arr xs =>
        have hrn : refNames (Json.arr xs) = refNamesElems xs := rfl
        rw [hrn] at hm
        have hsz : jsonSize (Json.arr xs) = 1 + sizeElems xs := rfl
        rw [hsz] at hm
        have hwfE : refsWFElems xs = true := hwf
        have hme : rankBoundOf rank (refNamesElems xs) *
            (defsMaxSize defs + 2) + sizeElems xs ≤ N - 1 :=
          descend_measure_le (le_refl _) (by omega) hm
        have hszN : 1 + sizeElems xs ≤ N := le_trans (Nat.le_add_left _ _) hm
        obtain ⟨_, _, hE⟩ := ihN (N - 1) (by omega)
        obtain ⟨f, hf⟩ := hE xs hwfE hme
        refine ⟨f + 1, ?_⟩
        rw [resolve_refs]
        rcases Option.isSome_iff_exists.mp hf with ⟨ys, hys⟩
        simp [hys]
      | null => exact ⟨1, rfl⟩
      | bool b => exact ⟨1, rfl⟩
      | num l => exact ⟨1, rfl⟩
      | str s => exact ⟨1, rfl⟩
    · intro kvs hwf hm
      cases kvs with
      | nil => exact ⟨1, rfl⟩
      | cons p rest =>
        obtain ⟨k, v⟩ := p
        have hprops := (refsWFFields_iff _).mp hwf
        have hwv : refsWF v = true := (hprops (k, v) (List.mem_cons_self _ _)).2
        have hwr : refsWFFields rest = true :=
          (refsWFFields_iff rest).mpr fun q hq =>
            hprops q (List.mem_cons_of_mem _ hq)
        have hrbv : rankBoundOf rank (refNames v) ≤
            rankBoundOf rank (refNamesFields ((k, v) :: rest)) :=
          rankBound_mono rank (refNames_field_mem (List.mem_cons_self _ _))
        have hrbr : rankBoundOf rank (refNamesFields rest) ≤
            rankBoundOf rank (refNamesFields ((k, v) :: rest)) :=
          rankBound_mono rank refNamesFields_rest_mem
        have hszc : sizeFields ((k, v) :: rest) =
            1 + jsonSize v + sizeFields rest := rfl
        rw [hszc] at hm
        have hmv : rankBoundOf rank (refNames v) * (defsMaxSize defs + 2) +
            jsonSize v ≤ N - 1 := descend_measure_le hrbv (by omega) hm
        have hmr : rankBoundOf rank (refNamesFields rest) *
            (defsMaxSize defs + 2) + sizeFields rest ≤ N - 1 :=
          descend_measure_le hrbr (by omega) hm
        have hszN : 1 + jsonSize v + sizeFields rest ≤ N :=
          le_trans (Nat.le_add_left _ _) hm
        obtain ⟨hJ, hF, _⟩ := ihN (N - 1) (by omega)
        obtain ⟨fv, hfv⟩ := hJ v hwv hmv
        obtain ⟨fr, hfr⟩ := hF rest hwr hmr
        rcases Option.isSome_iff_exists.mp hfv with ⟨v2, hv2⟩
        rcases Option.isSome_iff_exists.mp hfr with ⟨rs2, hrs2⟩
        have hv2m := (resolve_mono_all fv (max fv fr) (le_max_left _ _)).1
          defs v v2 hv2
        have hrs2m := (resolve_mono_all fr (max fv fr) (le_max_right _ _)).2.1
          defs rest rs2 hrs2
        refine ⟨max fv fr + 1, ?_⟩
        rw [resolveFields]
        simp [hv2m, hrs2m]
    · intro xs hwf hm
      cases xs with
      | nil => exact ⟨1, rfl⟩
      | cons x rest =>
        have hprops := (refsWFElems_iff _).mp hwf
        have hwx : refsWF x = true := hprops x (List.mem_cons_self _ _)
        have hwr : refsWFElems rest = true :=
          (refsWFElems_iff rest).mpr fun y hy =>
            hprops y (List.mem_cons_of_mem _ hy)
        have hrbx : rankBoundOf rank (refNames x) ≤
            rankBoundOf rank (refNamesElems (x :: rest)) :=
          rankBound_mono rank (refNames_elem_mem (List.mem_cons_self _ _))
        have hrbr : rankBoundOf rank (refNamesElems rest) ≤
            rankBoundOf rank (refNamesElems (x :: rest)) :=
          rankBound_mono rank refNamesElems_rest_mem
        have hszc : sizeElems (x :: rest) = 1 + jsonSize x + sizeElems rest := rfl
        rw [hszc] at hm
        have hmx : rankBoundOf rank (refNames x) * (defsMaxSize defs + 2) +
            jsonSize x ≤ N - 1 := descend_measure_le hrbx (by omega) hm
        have hmr : rankBoundOf rank (refNamesElems rest) *
            (defsMaxSize defs + 2) + sizeElems rest ≤ N - 1 :=
          descend_measure_le hrbr (by omega) hm
        have hszN : 1 + jsonSize x + sizeElems rest ≤ N :=
          le_trans (Nat.le_add_left _ _) hm
        obtain ⟨hJ, _, hE⟩ := ihN (N - 1) (by omega)
        obtain ⟨fx, hfx⟩ := hJ x hwx hmx
        obtain ⟨fr, hfr⟩ := hE rest hwr hmr
        rcases Option.isSome_iff_exists.mp hfx with ⟨x2, hx2⟩
        rcases Option.isSome_iff_exists.mp hfr with ⟨rs2, hrs2⟩
        have hx2m := (resolve_mono_all fx (max fx fr) (le_max_left _ _)).1
          defs x x2 hx2
        have hrs2m := (resolve_mono_all fr (max fx fr) (le_max_right _ _)).2.2
          defs rest rs2 hrs2
        refine ⟨max fx fr + 1, ?_⟩
        rw [resolveElems]
        simp [hx2m, hrs2m]

theorem resolve_cyc_none : ∀ fuel, resolve_refs cycDefs fuel cycObj = none := by
  intro fuel
  induction fuel with
  | zero => rfl
  | succ n ih =>
    have hstep : resolve_refs cycDefs (n + 1) cycObj =
        resolve_refs cycDefs n cycObj := rfl
    rw [hstep]
    exact ih

theorem inline_cyc_none : ∀ fuel, inline_json_schema_defs fuel cycSchema = none := by
  intro fuel
  have hstep : inline_json_schema_defs fuel cycSchema =
      resolve_refs cycDefs fuel cycObj := rfl
  rw [hstep]
  exact resolve_cyc_none fuel

theorem inline_clean {fuel : Nat} {schema out : Json}
    (h : inline_json_schema_defs fuel schema = some out) :
    hasRefKey out = false := by
  cases schema with
  | obj fields =>
    cases hd : fields.lookup "$defs" with
    | some w =>
      cases w with
      | obj defs =>
        simp only [inline_json_schema_defs, hd] at h
        exact (resolve_clean_all fuel).1 defs _ out h
      | null => simp [inline_json_schema_defs, hd] at h
      | bool b => simp [inline_json_schema_defs, hd] at h
      | num l => simp [inline_json_schema_defs, hd] at h
      | str s => simp [inline_json_schema_defs, hd] at h
      | arr xs => simp [inline_json_schema_defs, hd] at h
    | none =>
      simp only [inline_json_schema_defs, hd] at h
      exact (resolve_clean_all fuel).1 [] _ out h
  | null => simp [inline_json_schema_defs] at h
  | bool b => simp [inline_json_schema_defs] at h
  | num l => simp [inline_json_schema_defs] at h
  | str s => simp [inline_json_schema_defs] at h
  | arr xs => simp [inline_json_schema_defs] at h

/-- C7: whatever `inline_json_schema_defs` returns contains no `"$ref"` key
at any nesting depth (inside objects and inside lists); a `$ref` object is
replaced by the recursively-resolved body of its definition — the jump
equation, second conjunct —, a dangling reference resolves to the empty
object rather than raising (third conjunct; the `+ 3` supplies the steps
the fuel-indexed embedding charges for the jump and the empty object), and
the top-level `$defs` member is popped before resolution (fourth
conjunct).  The hypothesis quantifies over terminating runs: on a cyclic
schema the Python function does not return at all (claim C10). -/
theorem inline_output_refFree (fuel : Nat) (schema out : Json)
    (h : inline_json_schema_defs fuel schema = some out) :
    hasRefKey out = false ∧
    (∀ defs g kvs s, List.lookup "$ref" kvs = some (Json.str s) →
      resolve_refs defs (g + 1) (Json.obj kvs) =
        resolve_refs defs g (defsGet defs (lastComp s))) ∧
    (∀ defs g kvs s, List.lookup "$ref" kvs = some (Json.str s) →
      List.lookup (lastComp s) defs = none →
      resolve_refs defs (g + 3) (Json.obj kvs) = some (Json.obj [])) ∧
    (∀ fields defs g, List.lookup "$defs" fields = some (Json.obj defs) →
      inline_json_schema_defs g (Json.obj fields) =
        resolve_refs defs g (Json.obj (eraseField fields "$defs"))) := by
  refine ⟨inline_clean h, ?_, ?_, ?_⟩
  · intro defs g kvs s hl
    rw [resolve_refs, hl]
  · intro defs g kvs s hl hmiss
    rw [resolve_refs, hl]
    show resolve_refs defs (g + 2) (defsGet defs (lastComp s)) = some (Json.obj [])
    unfold defsGet
    rw [hmiss]
    rfl
  · intro fields defs g hd
    simp [inline_json_schema_defs, hd]

/-- C7 witness: the conclusion at a concrete one-indirection schema. -/
theorem inline_output_refFree_witness :
    hasRefKey acyOut = false ∧
    (∀ defs g kvs s, List.lookup "$ref" kvs = some (Json.str s) →
      resolve_refs defs (g + 1) (Json.obj kvs) =
        resolve_refs defs g (defsGet defs (lastComp s))) ∧
    (∀ defs g kvs s, List.lookup "$ref" kvs = some (Json.str s) →
      List.lookup (lastComp s) defs = none →
      resolve_refs defs (g + 3) (Json.obj kvs) = some (Json.obj [])) ∧
    (∀ fields defs g, List.lookup "$defs" fields = some (Json.obj defs) →
      inline_json_schema_defs g (Json.obj fields) =
        resolve_refs defs g (Json.obj (eraseField fields "$defs"))) :=
  inline_output_refFree 10 (Json.obj acyFields) acyOut rfl

/-- C8 counterexample: a schema with nested `$ref`/`$defs` indirection on
which inlining is not idempotent.  The referenced definition body itself
carries a `$defs` member; the first pass substitutes it to the top level of
the result, and the second pass pops it, so the second output differs from
the first. -/
theorem inline_not_idempotent_cex :
    inline_json_schema_defs 10 c8schema = some c8once ∧
    inline_json_schema_defs 10 c8once = some c8twice ∧
    c8twice ≠ c8once := by
  refine ⟨rfl, rfl, ?_⟩
  intro h
  have h1 : topHasDefs c8twice = topHasDefs c8once := congrArg topHasDefs h
  have h2 : topHasDefs c8once = true := rfl
  have h3 : topHasDefs c8twice = false := rfl
  rw [h2, h3] at h1
  exact Bool.noConfusion h1

/-- C8 as amended: for every schema whose once-inlined result is still an
object carrying no top-level `$defs` member (which no more than the
counterexample forces: substitution may re-introduce `$defs` at the top, or
replace the top level by a non-object, and then the second pass differs or
fails), inlining the result again returns it unchanged — with any fuel
beyond the result's size, since the fuel-indexed embedding charges a step
per node. -/
theorem inline_idempotent_on_defsFree (fuel : Nat) (schema out : Json)
    (h1 : inline_json_schema_defs fuel schema = some out)
    (h2 : topObjNoDefs out = true) :
    ∀ g, jsonSize out < g → inline_json_schema_defs g out = some out := by
  intro g hg
  have hclean : hasRefKey out = false := inline_clean h1
  cases out with
  | obj fields2 =>
    have hnd : fields2.lookup "$defs" = none := by
      have : (fields2.lookup "$defs").isNone = true := h2
      exact Option.isNone_iff_eq_none.mp this
    simp only [inline_json_schema_defs, hnd]
    exact (resolve_id_all g).1 [] _ hclean hg
  | null => exact absurd h2 (by simp [topObjNoDefs])
  | bool b => exact absurd h2 (by simp [topObjNoDefs])
  | num l => exact absurd h2 (by simp [topObjNoDefs])
  | str s => exact absurd h2 (by simp [topObjNoDefs])
  | arr xs => exact absurd h2 (by simp [topObjNoDefs])

/-- C8 amended-claim witness: a once-inlined concrete schema re-inlines to
itself. -/
theorem inline_idempotent_on_defsFree_witness :
    inline_json_schema_defs 9 acyOut = some acyOut :=
  inline_idempotent_on_defsFree 10 (Json.obj acyFields) acyOut rfl rfl 9
    (by decide)


/-- C10: the fuel-indexed embedding of `inline_json_schema_defs` succeeds
with some fuel — the Python recursion terminates — on every schema whose
`$defs` table admits a rank function under which each definition only
references strictly lower-ranked definitions (for a finite table this is
exactly acyclicity of the reference chains), with every `$ref` value a
string as the claims' `#/$defs/<name>` form requires; and the acyclicity is
necessary: on the concrete self-referential table `{"A": {"$ref":
"#/$defs/A"}}` the inner `resolve_refs` re-resolves the same body for ever
(none at every fuel), so `inline_json_schema_defs` never returns. -/
theorem inline_terminates_on_acyclic_refs (fields defs : List (String × Json))
    (rank : String → Nat)
    (hdefs : List.lookup "$defs" fields = some (Json.obj defs))
    (hWs : refsWF (Json.obj (eraseField fields "$defs")) = true)
    (hWd : ∀ p ∈ defs, refsWF p.2 = true)
    (hR : RankOK rank defs) :
    (∃ fuel out, inline_json_schema_defs fuel (Json.obj fields) = some out) ∧
    (∀ fuel, resolve_refs cycDefs fuel cycObj = none) ∧
    (∀ fuel, inline_json_schema_defs fuel cycSchema = none) := by
  refine ⟨?_, resolve_cyc_none, inline_cyc_none⟩
  obtain ⟨hJ, _, _⟩ := resolve_total_all defs rank hR hWd
    (rankBoundOf rank (refNames (Json.obj (eraseField fields "$defs"))) *
      (defsMaxSize defs + 2) + jsonSize (Json.obj (eraseField fields "$defs")))
  obtain ⟨f, hf⟩ := hJ _ hWs (le_refl _)
  rcases Option.isSome_iff_exists.mp hf with ⟨out, hout⟩
  refine ⟨f, out, ?_⟩
  simp [inline_json_schema_defs, hdefs, hout]

/-- C10 witness: the acyclic one-indirection schema terminates (rank
constant zero), and the cyclic conjuncts are closed. -/
theorem inline_terminates_on_acyclic_refs_witness :
    ((∃ fuel out, inline_json_schema_defs fuel (Json.obj acyFields) = some out) ∧
      (∀ fuel, resolve_refs cycDefs fuel cycObj = none) ∧
      (∀ fuel, inline_json_schema_defs fuel cycSchema = none)) :=
  inline_terminates_on_acyclic_refs acyFields acyDefs (fun _ => 0) rfl rfl
    (by decide) (by unfold RankOK; decide)
